import Mathlib

/-!
Shallow embedding of the prefix tree implementation in `prefixtree.py`.

Python strings are embedded as `List Char` (iteration over a Python string
yields its characters in order; concatenation of a string with a character is
`l ++ [c]`). The `PrefixTreeNode` class lives in `prefixtreenode.py`, which is
not part of the sources; its accessors are modelled from the spec (§4.1).
The `PrefixTree` class and all its methods are translated from
`src/prefixtree.py`.
-/

set_option autoImplicit false

/-- Modelled from the spec: a `PrefixTreeNode` is a structural record holding
the single character this node represents on the edge from its parent (the
root holds the sentinel empty string), a `terminal` flag, and a mapping from
character to child node.  The mapping is a Python dict, embedded as an
association list in insertion order with unique keys. -/
inductive PrefixTreeNode : Type where
  | mk (character : List Char) (terminal : Bool) (children : List (Char × PrefixTreeNode))
deriving Repr

namespace PrefixTreeNode

def character : PrefixTreeNode → List Char
  | .mk ch _ _ => ch

def terminal : PrefixTreeNode → Bool
  | .mk _ t _ => t

def children : PrefixTreeNode → List (Char × PrefixTreeNode)
  | .mk _ _ cs => cs

/-- Python dict lookup on the children mapping: returns the value stored under
the first (and, with unique keys, only) matching key, or `none` if the key is
absent. -/
def lookupChild : List (Char × PrefixTreeNode) → Char → Option PrefixTreeNode
  | [], _ => none
  | (c', m) :: rest, c => if c' = c then some m else lookupChild rest c

/-- Modelled from the spec: `get_child(c)` returns the owned child for `c`;
calling it for a character absent from `children` is a lookup failure,
embedded as `none`. -/
def get_child (n : PrefixTreeNode) (c : Char) : Option PrefixTreeNode :=
  lookupChild n.children c

/-- Modelled from the spec: `has_child(c)` is true iff `c` is a key in
`children`. -/
def has_child (n : PrefixTreeNode) (c : Char) : Bool :=
  (n.get_child c).isSome

/-- Modelled from the spec: `is_terminal()` returns the terminal flag. -/
def is_terminal (n : PrefixTreeNode) : Bool :=
  n.terminal

/-- Python dict assignment `d[c] = m`: replaces the value under an existing
key in place, or appends a new key at the end of the iteration order. -/
def assocSet : List (Char × PrefixTreeNode) → Char → PrefixTreeNode → List (Char × PrefixTreeNode)
  | [], c, m => [(c, m)]
  | (c', n') :: rest, c, m => if c' = c then (c, m) :: rest else (c', n') :: assocSet rest c m

/-- Modelled from the spec: `add_child(c, node)` inserts `node` as the child
for key `c` (dict assignment on `children`). -/
def add_child (n : PrefixTreeNode) (c : Char) (m : PrefixTreeNode) : PrefixTreeNode :=
  .mk n.character n.terminal (assocSet n.children c m)

/-- The Python statement `node.terminal = True` in `PrefixTree.insert`. -/
def setTerminal : PrefixTreeNode → PrefixTreeNode
  | .mk ch _ cs => .mk ch true cs

end PrefixTreeNode

/-- The state of a `PrefixTree`: its root node and the count of distinct
strings inserted (`self.root` and `self.size`). -/
structure PrefixTree where
  root : PrefixTreeNode
  size : Nat
deriving Repr

namespace PrefixTree

/-- Constant for the start character stored in the prefix tree's root node
(`START_CHARACTER = ''`). -/
def START_CHARACTER : List Char := []

/-- The tree produced by `PrefixTree()` before any insertion: a fresh root
with the start character and size 0 (`__init__` with `strings=None`). -/
def empty : PrefixTree :=
  ⟨PrefixTreeNode.mk START_CHARACTER false [], 0⟩

/-- The loop of `_find_node`: walk down from `n`, at each character descending
into the matching child if there is one and otherwise returning the current
node and the depth reached so far. -/
def findNodeFrom : PrefixTreeNode → List Char → Nat → PrefixTreeNode × Nat
  | n, [], d => (n, d)
  | n, c :: rest, d =>
    match n.get_child c with
    | some m => findNodeFrom m rest (d + 1)
    | none => (n, d)

/-- `PrefixTree._find_node`: the deepest node matching the longest matched
front part of the given string, together with its depth; the empty string is
matched at the root without looping. -/
def _find_node (t : PrefixTree) (s : List Char) : PrefixTreeNode × Nat :=
  if s.length = 0 then (t.root, 0)
  else findNodeFrom t.root s 0

/-- `PrefixTree.contains`: true iff the whole string was matched and the node
reached is terminal. -/
def contains (t : PrefixTree) (s : List Char) : Bool :=
  let nd := t._find_node s
  if nd.2 = s.length ∧ nd.1.is_terminal = true then true else false

/-- The loop of `insert`: walk down from `n`, descending into an existing
matching child or attaching (and descending into) a fresh node, and mark the
final node terminal.  Rebuilding the path functionally corresponds to the
in-place mutation of the Python code. -/
def insertFrom : PrefixTreeNode → List Char → PrefixTreeNode
  | n, [] => n.setTerminal
  | n, c :: rest =>
    match n.get_child c with
    | some child =>
        .mk n.character n.terminal (PrefixTreeNode.assocSet n.children c (insertFrom child rest))
    | none =>
        .mk n.character n.terminal
          (PrefixTreeNode.assocSet n.children c (insertFrom (.mk [c] false []) rest))

/-- `PrefixTree.insert`: record whether the string was already present, grow
the tree along the string's path, mark the final node terminal, and increment
`size` only if the string was not already present. -/
def insert (t : PrefixTree) (s : List Char) : PrefixTree :=
  let already_exists := t.contains s
  ⟨insertFrom t.root s, if ¬ already_exists = true then t.size + 1 else t.size⟩

/-- `__init__` with a given collection of strings: start from the empty tree
and insert each string in order. -/
def ofStrings (ss : List (List Char)) : PrefixTree :=
  ss.foldl insert empty

/-- `PrefixTree.is_empty`: true iff `size == 0`. -/
def is_empty (t : PrefixTree) : Bool :=
  if t.size = 0 then true else false

mutual
/-- `PrefixTree._traverse` with the visit callback embedded as list
collection: visit the current path if the node is terminal, then recurse into
every child in order, extending the path by the child's character. -/
def _traverse : PrefixTreeNode → List Char → List (List Char)
  | .mk _ t cs, pfx => (if t then [pfx] else []) ++ _traverseChildren cs pfx

/-- The `for char, child_node in node.children.items()` loop of `_traverse`. -/
def _traverseChildren : List (Char × PrefixTreeNode) → List Char → List (List Char)
  | [], _ => []
  | (c, child) :: rest, pfx => _traverse child (pfx ++ [c]) ++ _traverseChildren rest pfx
end

/-- `PrefixTree.complete`: all stored strings starting with the given string,
collected by traversing from the deepest matched node when the whole given
string was matched, and empty otherwise. -/
def complete (t : PrefixTree) (pfx : List Char) : List (List Char) :=
  let nd := t._find_node pfx
  if nd.2 = pfx.length then _traverse nd.1 pfx else []

/-- `PrefixTree.strings`: all strings stored in the tree, traversing from the
root with the empty path. -/
def strings (t : PrefixTree) : List (List Char) :=
  _traverse t.root []

end PrefixTree

/-! Specification-side definitions used to state the claims. -/

/-- Follow the character-by-character path `cs` from `n`; `some m` iff every
character had a matching child edge, with `m` the node reached. -/
def walk : PrefixTreeNode → List Char → Option PrefixTreeNode
  | n, [] => some n
  | n, c :: rest =>
    match n.get_child c with
    | some m => walk m rest
    | none => none

/-- A string is stored below `n` iff its full path exists and ends at a
terminal node. -/
def memNode : PrefixTreeNode → List Char → Bool
  | n, [] => n.terminal
  | n, c :: rest =>
    match n.get_child c with
    | some m => memNode m rest
    | none => false

/-- Boolean key distinctness for a list of characters. -/
def keysDistinct : List Char → Bool
  | [] => true
  | c :: rest => (!(rest.contains c)) && keysDistinct rest

mutual
/-- Well-formedness of a node: the children mapping has pairwise distinct
keys (as a Python dict always does) at this node and, recursively, at every
descendant. -/
def nodeWF : PrefixTreeNode → Bool
  | .mk _ _ cs => keysDistinct (cs.map Prod.fst) && childrenWF cs

/-- Well-formedness of every node in a children list. -/
def childrenWF : List (Char × PrefixTreeNode) → Bool
  | [] => true
  | (_, child) :: rest => nodeWF child && childrenWF rest
end

/-! State-threaded transcriptions of the query methods.  The Python methods
run against a mutable tree object; these variants thread the whole tree state
through every step of the computation and return the final state alongside
the result, so that the absence of mutation in the queries is a provable
property rather than a modelling assumption. -/

/-- State-threaded loop of `_find_node`. -/
def findNodeFromS : PrefixTree → PrefixTreeNode → List Char → Nat → PrefixTree × (PrefixTreeNode × Nat)
  | t, n, [], d => (t, (n, d))
  | t, n, c :: rest, d =>
    match n.get_child c with
    | some m => findNodeFromS t m rest (d + 1)
    | none => (t, (n, d))

/-- State-threaded `_find_node`. -/
def findNodeS (t : PrefixTree) (s : List Char) : PrefixTree × (PrefixTreeNode × Nat) :=
  if s.length = 0 then (t, (t.root, 0))
  else findNodeFromS t t.root s 0

/-- State-threaded `contains`. -/
def containsS (t : PrefixTree) (s : List Char) : PrefixTree × Bool :=
  let r := findNodeS t s
  (r.1, if (r.2).2 = s.length ∧ (r.2).1.is_terminal = true then true else false)

mutual
/-- State-threaded `_traverse`. -/
def traverseS : PrefixTree → PrefixTreeNode → List Char → PrefixTree × List (List Char)
  | t, .mk _ b cs, pfx =>
    let r := traverseChildrenS t cs pfx
    (r.1, (if b then [pfx] else []) ++ r.2)

/-- State-threaded children loop of `_traverse`. -/
def traverseChildrenS : PrefixTree → List (Char × PrefixTreeNode) → List Char → PrefixTree × List (List Char)
  | t, [], _ => (t, [])
  | t, (c, child) :: rest, pfx =>
    let r1 := traverseS t child (pfx ++ [c])
    let r2 := traverseChildrenS r1.1 rest pfx
    (r2.1, r1.2 ++ r2.2)
end

/-- State-threaded `complete`. -/
def completeS (t : PrefixTree) (pfx : List Char) : PrefixTree × List (List Char) :=
  let r := findNodeS t pfx
  if (r.2).2 = pfx.length then traverseS r.1 (r.2).1 pfx else (r.1, [])

/-- State-threaded `strings`. -/
def stringsS (t : PrefixTree) : PrefixTree × List (List Char) :=
  traverseS t t.root []

/-- State-threaded `is_empty`. -/
def isEmptyS (t : PrefixTree) : PrefixTree × Bool :=
  (t, if t.size = 0 then true else false)

/-! Checked transcriptions that make the lookup-failure branch of
`get_child` explicit.  Each internal call site of `get_child` in the Python
code is guarded by `has_child`; these variants keep the literal guard
structure and return `none` exactly when `get_child` would signal a
missing-key error despite the guard, so "the failure branch is unreachable"
becomes the statement that they always return `some`. -/

/-- Checked loop of `_find_node`: `has_child` guard first, then `get_child`,
with the missing-key outcome of `get_child` propagated as `none`. -/
def findNodeFromChecked : PrefixTreeNode → List Char → Nat → Option (PrefixTreeNode × Nat)
  | n, [], d => some (n, d)
  | n, c :: rest, d =>
    if n.has_child c then
      match n.get_child c with
      | some m => findNodeFromChecked m rest (d + 1)
      | none => none
    else some (n, d)

/-- Checked `_find_node`. -/
def findNodeChecked (t : PrefixTree) (s : List Char) : Option (PrefixTreeNode × Nat) :=
  if s.length = 0 then some (t.root, 0)
  else findNodeFromChecked t.root s 0

/-- Checked `contains`. -/
def containsChecked (t : PrefixTree) (s : List Char) : Option Bool :=
  (findNodeChecked t s).map
    (fun nd => if nd.2 = s.length ∧ nd.1.is_terminal = true then true else false)

/-- Checked loop of `insert`: `has_child` guard first, then `get_child`, with
the missing-key outcome of `get_child` propagated as `none`. -/
def insertFromChecked : PrefixTreeNode → List Char → Option PrefixTreeNode
  | n, [] => some n.setTerminal
  | n, c :: rest =>
    if n.has_child c then
      match n.get_child c with
      | some child =>
          (insertFromChecked child rest).map
            (fun m => .mk n.character n.terminal (PrefixTreeNode.assocSet n.children c m))
      | none => none
    else
      (insertFromChecked (.mk [c] false []) rest).map
        (fun m => .mk n.character n.terminal (PrefixTreeNode.assocSet n.children c m))

/-- Checked `insert`. -/
def insertChecked (t : PrefixTree) (s : List Char) : Option PrefixTree :=
  (containsChecked t s).bind fun already_exists =>
    (insertFromChecked t.root s).map fun r =>
      ⟨r, if ¬ already_exists = true then t.size + 1 else t.size⟩

/-- Checked `complete` (the traversal itself calls no `get_child`). -/
def completeChecked (t : PrefixTree) (pfx : List Char) : Option (List (List Char)) :=
  (findNodeChecked t pfx).map
    (fun nd => if nd.2 = pfx.length then PrefixTree._traverse nd.1 pfx else [])

/-! Basic lemmas about the node accessors and the children mapping. -/

namespace PrefixTreeNode

@[simp] theorem character_mk (ch : List Char) (b : Bool) (cs : List (Char × PrefixTreeNode)) :
    (PrefixTreeNode.mk ch b cs).character = ch := rfl

@[simp] theorem terminal_mk (ch : List Char) (b : Bool) (cs : List (Char × PrefixTreeNode)) :
    (PrefixTreeNode.mk ch b cs).terminal = b := rfl

@[simp] theorem children_mk (ch : List Char) (b : Bool) (cs : List (Char × PrefixTreeNode)) :
    (PrefixTreeNode.mk ch b cs).children = cs := rfl

@[simp] theorem is_terminal_eq (n : PrefixTreeNode) : n.is_terminal = n.terminal := rfl

@[simp] theorem setTerminal_terminal (n : PrefixTreeNode) : n.setTerminal.terminal = true := by
  rcases n with ⟨ch, b, cs⟩
  rfl

@[simp] theorem setTerminal_children (n : PrefixTreeNode) : n.setTerminal.children = n.children := by
  rcases n with ⟨ch, b, cs⟩
  rfl

@[simp] theorem setTerminal_character (n : PrefixTreeNode) :
    n.setTerminal.character = n.character := by
  rcases n with ⟨ch, b, cs⟩
  rfl

@[simp] theorem get_child_mk (ch : List Char) (b : Bool) (cs : List (Char × PrefixTreeNode))
    (c : Char) : (PrefixTreeNode.mk ch b cs).get_child c = lookupChild cs c := rfl

@[simp] theorem get_child_setTerminal (n : PrefixTreeNode) (c : Char) :
    n.setTerminal.get_child c = n.get_child c := by
  rcases n with ⟨ch, b, cs⟩
  rfl

theorem lookupChild_assocSet_self (l : List (Char × PrefixTreeNode)) (c : Char)
    (m : PrefixTreeNode) : lookupChild (assocSet l c m) c = some m := by
  induction l with
  | nil => simp [assocSet, lookupChild]
  | cons p rest ih =>
    rcases p with ⟨c', n'⟩
    by_cases h : c' = c
    · simp [assocSet, h, lookupChild]
    · simp [assocSet, h, lookupChild, ih]

theorem lookupChild_assocSet_ne (l : List (Char × PrefixTreeNode)) (c d : Char)
    (m : PrefixTreeNode) (hdc : d ≠ c) :
    lookupChild (assocSet l c m) d = lookupChild l d := by
  induction l with
  | nil => simp [assocSet, lookupChild, Ne.symm hdc]
  | cons p rest ih =>
    rcases p with ⟨c', n'⟩
    by_cases h : c' = c
    · subst h
      simp [assocSet, lookupChild, Ne.symm hdc]
    · simp [assocSet, h, lookupChild, ih]

theorem assocSet_assocSet (l : List (Char × PrefixTreeNode)) (c : Char)
    (m m' : PrefixTreeNode) : assocSet (assocSet l c m) c m' = assocSet l c m' := by
  induction l with
  | nil => simp [assocSet]
  | cons p rest ih =>
    rcases p with ⟨c', n'⟩
    by_cases h : c' = c
    · simp [assocSet, h]
    · simp [assocSet, h, ih]

theorem assocSet_of_lookupChild (l : List (Char × PrefixTreeNode)) (c : Char)
    (m : PrefixTreeNode) (h : lookupChild l c = some m) : assocSet l c m = l := by
  induction l with
  | nil => simp [lookupChild] at h
  | cons p rest ih =>
    rcases p with ⟨c', n'⟩
    by_cases hc : c' = c
    · subst hc
      simp [lookupChild] at h
      simp [assocSet, h]
    · simp [lookupChild, hc] at h
      simp [assocSet, hc, ih h]

end PrefixTreeNode

/-! Lemmas relating the walk helpers, `memNode` and the tree operations. -/

open PrefixTreeNode

/-- A freshly created node stores nothing. -/
theorem memNode_new (c : Char) (ds : List Char) :
    memNode (PrefixTreeNode.mk [c] false []) ds = false := by
  cases ds with
  | nil => rfl
  | cons d ds' => simp [memNode, lookupChild]

/-- Effect of the insertion walk on stored strings: exactly the inserted
string is added. -/
theorem memNode_insertFrom (cs : List Char) (n : PrefixTreeNode) (ds : List Char) :
    memNode (PrefixTree.insertFrom n cs) ds = true ↔ (ds = cs ∨ memNode n ds = true) := by
  induction cs generalizing n ds with
  | nil =>
    cases ds with
    | nil => simp [PrefixTree.insertFrom, memNode]
    | cons d ds' =>
      rcases n with ⟨ch, b, kids⟩
      simp only [PrefixTree.insertFrom, memNode, PrefixTreeNode.setTerminal, get_child_mk]
      cases PrefixTreeNode.lookupChild kids d <;> simp
  | cons c rest ih =>
    rcases n with ⟨ch, b, kids⟩
    cases ds with
    | nil =>
      simp only [PrefixTree.insertFrom, get_child_mk]
      cases PrefixTreeNode.lookupChild kids c <;> simp [memNode]
    | cons d ds' =>
      by_cases hdc : d = c
      · subst hdc
        simp only [PrefixTree.insertFrom, get_child_mk]
        cases hkid : PrefixTreeNode.lookupChild kids d with
        | some child =>
          simp only [memNode, get_child_mk, lookupChild_assocSet_self, hkid, ih]
          simp
        | none =>
          simp only [memNode, get_child_mk, lookupChild_assocSet_self, hkid, ih, memNode_new]
          simp
      · simp only [PrefixTree.insertFrom, get_child_mk]
        have hne : (d :: ds') ≠ (c :: rest) := by
          intro h
          exact hdc (List.head_eq_of_cons_eq h)
        cases hkid : PrefixTreeNode.lookupChild kids c with
        | some child =>
          simp only [memNode, get_child_mk, lookupChild_assocSet_ne _ _ _ _ hdc, hne]
          simp
        | none =>
          simp only [memNode, get_child_mk, lookupChild_assocSet_ne _ _ _ _ hdc, hne]
          simp

/-- The depth returned by the search loop never exceeds the start depth plus
the length of the string. -/
theorem findNodeFrom_snd_le (cs : List Char) (n : PrefixTreeNode) (d : Nat) :
    (PrefixTree.findNodeFrom n cs d).2 ≤ d + cs.length := by
  induction cs generalizing n d with
  | nil => simp [PrefixTree.findNodeFrom]
  | cons c rest ih =>
    simp only [PrefixTree.findNodeFrom]
    cases n.get_child c with
    | some m =>
      have := ih m (d + 1)
      simp only [List.length_cons]
      omega
    | none => simp

/-- The search loop reaches full depth exactly when the whole walk succeeds. -/
theorem findNodeFrom_snd_eq_iff (cs : List Char) (n : PrefixTreeNode) (d : Nat) :
    (PrefixTree.findNodeFrom n cs d).2 = d + cs.length ↔ ∃ m, walk n cs = some m := by
  induction cs generalizing n d with
  | nil => simp [PrefixTree.findNodeFrom, walk]
  | cons c rest ih =>
    simp only [PrefixTree.findNodeFrom, walk]
    cases n.get_child c with
    | some m =>
      have := ih m (d + 1)
      simp only [List.length_cons]
      constructor
      · intro h
        exact (this).1 (by omega)
      · intro h
        have := (this).2 h
        omega
    | none => simp

/-- When the whole walk succeeds, the search loop returns the node reached
and the full depth. -/
theorem findNodeFrom_of_walk (cs : List Char) (n m : PrefixTreeNode) (d : Nat)
    (h : walk n cs = some m) : PrefixTree.findNodeFrom n cs d = (m, d + cs.length) := by
  induction cs generalizing n d with
  | nil =>
    simp [walk] at h
    simp [PrefixTree.findNodeFrom, h]
  | cons c rest ih =>
    cases hg : n.get_child c with
    | some m' =>
      simp only [walk, hg] at h
      simp only [PrefixTree.findNodeFrom, hg, List.length_cons]
      rw [ih m' (d + 1) h]
      congr 1
      omega
    | none => simp [walk, hg] at h

/-- Splitting a walk at an intermediate point. -/
theorem walk_append (p q : List Char) (n : PrefixTreeNode) :
    walk n (p ++ q) = (walk n p).bind (fun m => walk m q) := by
  induction p generalizing n with
  | nil => simp [walk]
  | cons c rest ih =>
    simp only [List.cons_append, walk]
    cases n.get_child c with
    | some m => simp [ih]
    | none => simp

/-- Membership below a node, restated through the walk. -/
theorem memNode_iff_walk (cs : List Char) (n : PrefixTreeNode) :
    memNode n cs = true ↔ ∃ m, walk n cs = some m ∧ m.terminal = true := by
  induction cs generalizing n with
  | nil => simp [memNode, walk]
  | cons c rest ih =>
    simp only [memNode, walk]
    cases n.get_child c with
    | some m => simp [ih]
    | none => simp

/-- The condition computed by `contains` from the search result equals
membership below the node searched from. -/
theorem findNodeFrom_contains_eq_memNode (cs : List Char) (n : PrefixTreeNode) (d : Nat) :
    (if ((PrefixTree.findNodeFrom n cs d).2 = d + cs.length ∧
        (PrefixTree.findNodeFrom n cs d).1.terminal = true) then true else false) =
      memNode n cs := by
  induction cs generalizing n d with
  | nil =>
    simp [PrefixTree.findNodeFrom, memNode]
  | cons c rest ih =>
    cases hg : n.get_child c with
    | some m =>
      simp only [PrefixTree.findNodeFrom, memNode, hg]
      have h := ih m (d + 1)
      have harith : d + (c :: rest).length = (d + 1) + rest.length := by
        simp only [List.length_cons]
        omega
      rw [harith]
      exact h
    | none =>
      simp only [PrefixTree.findNodeFrom, memNode, hg]
      rw [if_neg]
      intro hcon
      have h1 := hcon.1
      simp only [List.length_cons] at h1
      omega

/-- `contains` computes membership along terminal-ended paths. -/
theorem contains_eq_memNode (t : PrefixTree) (s : List Char) :
    t.contains s = memNode t.root s := by
  cases s with
  | nil =>
    simp only [PrefixTree.contains, PrefixTree._find_node, List.length_nil, if_pos rfl,
      memNode, is_terminal_eq]
    cases h : t.root.terminal <;> simp [h]
  | cons c rest =>
    have h := findNodeFrom_contains_eq_memNode (c :: rest) t.root 0
    simp only [Nat.zero_add] at h
    simp only [PrefixTree.contains, PrefixTree._find_node, List.length_cons, is_terminal_eq]
    simp only [List.length_cons] at h
    exact h

/-- Characters found by `lookupChild` come from the mapping. -/
theorem mem_of_lookupChild (l : List (Char × PrefixTreeNode)) (c : Char) (m : PrefixTreeNode)
    (h : lookupChild l c = some m) : (c, m) ∈ l := by
  induction l with
  | nil => simp [lookupChild] at h
  | cons p rest ih =>
    rcases p with ⟨c', n'⟩
    by_cases hc : c' = c
    · subst hc
      simp [lookupChild] at h
      simp [h]
    · simp [lookupChild, hc] at h
      simp [ih h]

/-- Boolean character containment agrees with membership. -/
theorem charContains_iff (l : List Char) (c : Char) : l.contains c = true ↔ c ∈ l := by
  simp [List.contains_eq_any_beq, List.any_eq_true, beq_iff_eq]

/-- With pairwise distinct keys, every entry of the mapping is found by
`lookupChild`. -/
theorem lookupChild_eq_some_of_mem (l : List (Char × PrefixTreeNode)) (c : Char)
    (m : PrefixTreeNode) (hkd : keysDistinct (l.map Prod.fst) = true) (h : (c, m) ∈ l) :
    lookupChild l c = some m := by
  induction l with
  | nil => simp at h
  | cons p rest ih =>
    rcases p with ⟨c', n'⟩
    simp only [keysDistinct, List.map_cons, Bool.and_eq_true] at hkd
    rcases List.mem_cons.1 h with heq | hmem
    · rw [Prod.mk.injEq] at heq
      rcases heq with ⟨h1, h2⟩
      subst h1; subst h2
      simp [lookupChild]
    · have hcne : c' ≠ c := by
        intro hcc
        subst hcc
        have hmm : c' ∈ rest.map Prod.fst := List.mem_map.2 ⟨(c', m), hmem, rfl⟩
        have hcon := (charContains_iff (rest.map Prod.fst) c').2 hmm
        rcases hkd with ⟨hk1, _⟩
        rw [hcon] at hk1
        simp at hk1
      simp [lookupChild, hcne, ih hkd.2 hmem]

mutual
/-- Strings visited by the traversal from a well-formed node are exactly the
extensions of the accumulated path by a string stored below the node. -/
theorem mem_traverse (n : PrefixTreeNode) (pfx x : List Char) (hwf : nodeWF n = true) :
    x ∈ PrefixTree._traverse n pfx ↔ ∃ cs, x = pfx ++ cs ∧ memNode n cs = true := by
  rcases n with ⟨ch, b, kids⟩
  have hs : keysDistinct (kids.map Prod.fst) = true ∧ childrenWF kids = true := by
    simpa [nodeWF, Bool.and_eq_true] using hwf
  simp only [PrefixTree._traverse, List.mem_append]
  rw [mem_traverseChildren kids pfx x hs.2]
  constructor
  · rintro (hx | ⟨c, m, cs, hmem, hx, hm⟩)
    · have hb : b = true ∧ x = pfx := by
        cases b
        · simp at hx
        · simp at hx
          simp [hx]
      exact ⟨[], by simp [hb.2], by simp [memNode, hb.1]⟩
    · refine ⟨c :: cs, hx, ?_⟩
      have hl := lookupChild_eq_some_of_mem kids c m hs.1 hmem
      simp [memNode, hl, hm]
  · rintro ⟨cs, hx, hm⟩
    cases cs with
    | nil =>
      simp only [memNode, terminal_mk] at hm
      left
      simp [hm, hx]
    | cons c cs' =>
      simp only [memNode, get_child_mk] at hm
      cases hl : PrefixTreeNode.lookupChild kids c with
      | none => rw [hl] at hm; simp at hm
      | some m =>
        rw [hl] at hm
        right
        exact ⟨c, m, cs', mem_of_lookupChild kids c m hl, hx, hm⟩

/-- Strings visited by the children loop of the traversal are exactly the
extensions of the accumulated path through some child entry. -/
theorem mem_traverseChildren (kids : List (Char × PrefixTreeNode)) (pfx x : List Char)
    (hwf : childrenWF kids = true) :
    x ∈ PrefixTree._traverseChildren kids pfx ↔
      ∃ c m cs, (c, m) ∈ kids ∧ x = pfx ++ c :: cs ∧ memNode m cs = true := by
  cases kids with
  | nil => simp [PrefixTree._traverseChildren]
  | cons p rest =>
    rcases p with ⟨c, child⟩
    have hs : nodeWF child = true ∧ childrenWF rest = true := by
      simpa [childrenWF, Bool.and_eq_true] using hwf
    simp only [PrefixTree._traverseChildren, List.mem_append]
    rw [mem_traverse child (pfx ++ [c]) x hs.1, mem_traverseChildren rest pfx x hs.2]
    constructor
    · rintro (⟨cs, hx, hm⟩ | ⟨c', m, cs, hmem, hx, hm⟩)
      · exact ⟨c, child, cs, by simp, by simpa using hx, hm⟩
      · exact ⟨c', m, cs, by simp [hmem], hx, hm⟩
    · rintro ⟨c', m, cs, hmem, hx, hm⟩
      rcases List.mem_cons.1 hmem with heq | hmem'
      · rw [Prod.mk.injEq] at heq
        rcases heq with ⟨h1, h2⟩
        subst h1; subst h2
        left
        exact ⟨cs, by simpa using hx, hm⟩
      · right
        exact ⟨c', m, cs, hmem', hx, hm⟩
end

mutual
/-- Every string visited by the traversal extends the accumulated path. -/
theorem traverse_shape (n : PrefixTreeNode) (pfx x : List Char)
    (hx : x ∈ PrefixTree._traverse n pfx) : ∃ cs, x = pfx ++ cs := by
  rcases n with ⟨ch, b, kids⟩
  simp only [PrefixTree._traverse, List.mem_append] at hx
  rcases hx with hx | hx
  · cases b
    · simp at hx
    · simp at hx
      exact ⟨[], by simp [hx]⟩
  · rcases traverseChildren_shape kids pfx x hx with ⟨c, cs, _, hx'⟩
    exact ⟨c :: cs, hx'⟩

/-- Every string visited by the children loop extends the accumulated path by
one of the mapping's keys. -/
theorem traverseChildren_shape (kids : List (Char × PrefixTreeNode)) (pfx x : List Char)
    (hx : x ∈ PrefixTree._traverseChildren kids pfx) :
    ∃ c cs, c ∈ kids.map Prod.fst ∧ x = pfx ++ c :: cs := by
  cases kids with
  | nil => simp [PrefixTree._traverseChildren] at hx
  | cons p rest =>
    rcases p with ⟨c, child⟩
    simp only [PrefixTree._traverseChildren, List.mem_append] at hx
    rcases hx with hx | hx
    · rcases traverse_shape child (pfx ++ [c]) x hx with ⟨cs, hx'⟩
      exact ⟨c, cs, by simp, by simpa using hx'⟩
    · rcases traverseChildren_shape rest pfx x hx with ⟨c', cs, hc', hx'⟩
      exact ⟨c', cs, by simp [hc'], hx'⟩
end

mutual
/-- The traversal from a well-formed node visits no string twice. -/
theorem nodup_traverse (n : PrefixTreeNode) (pfx : List Char) (hwf : nodeWF n = true) :
    (PrefixTree._traverse n pfx).Nodup := by
  rcases n with ⟨ch, b, kids⟩
  have hs : keysDistinct (kids.map Prod.fst) = true ∧ childrenWF kids = true := by
    simpa [nodeWF, Bool.and_eq_true] using hwf
  have hrec := nodup_traverseChildren kids pfx hs.1 hs.2
  cases b with
  | false => simpa [PrefixTree._traverse] using hrec
  | true =>
    have hgoal : PrefixTree._traverse (.mk ch true kids) pfx =
        pfx :: PrefixTree._traverseChildren kids pfx := by
      simp [PrefixTree._traverse]
    rw [hgoal, List.nodup_cons]
    refine ⟨?_, hrec⟩
    intro hmem
    rcases traverseChildren_shape kids pfx pfx hmem with ⟨c, cs, _, habs⟩
    have : pfx.length = pfx.length + cs.length + 1 := by
      conv_lhs => rw [habs]
      simp [List.length_append]
      omega
    omega

/-- The children loop of the traversal from a well-formed mapping with
distinct keys visits no string twice. -/
theorem nodup_traverseChildren (kids : List (Char × PrefixTreeNode)) (pfx : List Char)
    (hkd : keysDistinct (kids.map Prod.fst) = true) (hwf : childrenWF kids = true) :
    (PrefixTree._traverseChildren kids pfx).Nodup := by
  cases kids with
  | nil => simp [PrefixTree._traverseChildren]
  | cons p rest =>
    rcases p with ⟨c, child⟩
    have hs : nodeWF child = true ∧ childrenWF rest = true := by
      simpa [childrenWF, Bool.and_eq_true] using hwf
    simp only [keysDistinct, List.map_cons, Bool.and_eq_true, Bool.not_eq_true'] at hkd
    have hcnotin : c ∉ rest.map Prod.fst := by
      intro hmem
      have := (charContains_iff (rest.map Prod.fst) c).2 hmem
      rw [this] at hkd
      simp at hkd
    simp only [PrefixTree._traverseChildren, List.nodup_append]
    refine ⟨nodup_traverse child (pfx ++ [c]) hs.1,
      nodup_traverseChildren rest pfx hkd.2 hs.2, ?_⟩
    intro a ha hb
    rcases traverse_shape child (pfx ++ [c]) a ha with ⟨cs, ha'⟩
    rcases traverseChildren_shape rest pfx a hb with ⟨c', cs', hc', hb'⟩
    rw [ha'] at hb'
    have heq : c :: cs = c' :: cs' := by
      have : pfx ++ c :: cs = pfx ++ c' :: cs' := by
        simpa [List.append_assoc] using hb'
      exact List.append_cancel_left this
    injection heq with hcc hcs
    exact hcnotin (hcc ▸ hc')
end

mutual
/-- In the traversal from a well-formed node, no string visited later is a
proper front part of a string visited earlier: terminal nodes are visited
before their descendants. -/
theorem pairwise_traverse (n : PrefixTreeNode) (pfx : List Char) (hwf : nodeWF n = true) :
    (PrefixTree._traverse n pfx).Pairwise (fun a b => ¬(b <+: a ∧ b ≠ a)) := by
  rcases n with ⟨ch, b, kids⟩
  have hs : keysDistinct (kids.map Prod.fst) = true ∧ childrenWF kids = true := by
    simpa [nodeWF, Bool.and_eq_true] using hwf
  have hrec := pairwise_traverseChildren kids pfx hs.1 hs.2
  cases b with
  | false => simpa [PrefixTree._traverse] using hrec
  | true =>
    have hgoal : PrefixTree._traverse (.mk ch true kids) pfx =
        pfx :: PrefixTree._traverseChildren kids pfx := by
      simp [PrefixTree._traverse]
    rw [hgoal, List.pairwise_cons]
    refine ⟨?_, hrec⟩
    intro a ha hcon
    rcases traverseChildren_shape kids pfx a ha with ⟨c, cs, _, ha'⟩
    have hlen : a.length = pfx.length + cs.length + 1 := by
      rw [ha']
      simp [List.length_append]
      omega
    have hle := hcon.1.length_le
    omega

/-- In the children loop of the traversal, no string visited later is a
proper front part of a string visited earlier. -/
theorem pairwise_traverseChildren (kids : List (Char × PrefixTreeNode)) (pfx : List Char)
    (hkd : keysDistinct (kids.map Prod.fst) = true) (hwf : childrenWF kids = true) :
    (PrefixTree._traverseChildren kids pfx).Pairwise (fun a b => ¬(b <+: a ∧ b ≠ a)) := by
  cases kids with
  | nil => simp [PrefixTree._traverseChildren]
  | cons p rest =>
    rcases p with ⟨c, child⟩
    have hs : nodeWF child = true ∧ childrenWF rest = true := by
      simpa [childrenWF, Bool.and_eq_true] using hwf
    simp only [keysDistinct, List.map_cons, Bool.and_eq_true, Bool.not_eq_true'] at hkd
    have hcnotin : c ∉ rest.map Prod.fst := by
      intro hmem
      have := (charContains_iff (rest.map Prod.fst) c).2 hmem
      rw [this] at hkd
      simp at hkd
    simp only [PrefixTree._traverseChildren, List.pairwise_append]
    refine ⟨pairwise_traverse child (pfx ++ [c]) hs.1,
      pairwise_traverseChildren rest pfx hkd.2 hs.2, ?_⟩
    intro a ha b hb hcon
    rcases traverse_shape child (pfx ++ [c]) a ha with ⟨cs, ha'⟩
    rcases traverseChildren_shape rest pfx b hb with ⟨c', cs', hc', hb'⟩
    have ha'' : a = pfx ++ c :: cs := by simpa [List.append_assoc] using ha'
    have hba := hcon.1
    rw [ha'', hb'] at hba
    have hba' : c' :: cs' <+: c :: cs := (List.prefix_append_right_inj pfx).1 hba
    have hcc : c' = c := (List.cons_prefix_cons.1 hba').1
    exact hcnotin (hcc ▸ hc')
end

/-- Keys present after a dict assignment come from the old keys or are the
assigned key. -/
theorem mem_keys_assocSet (l : List (Char × PrefixTreeNode)) (c d : Char) (m : PrefixTreeNode)
    (h : d ∈ (assocSet l c m).map Prod.fst) : d ∈ l.map Prod.fst ∨ d = c := by
  induction l with
  | nil => simpa [assocSet] using h
  | cons p rest ih =>
    rcases p with ⟨c', n'⟩
    by_cases hc : c' = c
    · subst hc
      simp only [assocSet, if_pos rfl, List.map_cons] at h
      rcases List.mem_cons.1 h with h1 | h1
      · right; exact h1
      · left; simp [h1]
    · simp only [assocSet, if_neg hc, List.map_cons] at h
      rcases List.mem_cons.1 h with h1 | h1
      · left; simp [h1]
      · rcases ih h1 with h2 | h2
        · left; simp [h2]
        · right; exact h2

/-- Dict assignment preserves key distinctness. -/
theorem keysDistinct_assocSet (l : List (Char × PrefixTreeNode)) (c : Char) (m : PrefixTreeNode)
    (h : keysDistinct (l.map Prod.fst) = true) :
    keysDistinct ((assocSet l c m).map Prod.fst) = true := by
  induction l with
  | nil => simp [assocSet, keysDistinct]
  | cons p rest ih =>
    rcases p with ⟨c', n'⟩
    simp only [List.map_cons, keysDistinct, Bool.and_eq_true, Bool.not_eq_true'] at h
    by_cases hc : c' = c
    · subst hc
      simp only [assocSet, if_pos rfl, List.map_cons, keysDistinct, Bool.and_eq_true,
        Bool.not_eq_true']
      exact h
    · simp only [assocSet, if_neg hc, List.map_cons, keysDistinct, Bool.and_eq_true,
        Bool.not_eq_true']
      refine ⟨?_, ih h.2⟩
      by_cases habs : ((assocSet rest c m).map Prod.fst).contains c' = true
      · have := mem_keys_assocSet rest c c' m ((charContains_iff _ _).1 habs)
        rcases this with h2 | h2
        · have := (charContains_iff _ _).2 h2
          rw [this] at h
          simp at h
        · exact absurd h2 hc
      · simpa using habs

/-- Dict assignment of a well-formed node preserves well-formedness of all
entries. -/
theorem childrenWF_assocSet (l : List (Char × PrefixTreeNode)) (c : Char) (m : PrefixTreeNode)
    (hl : childrenWF l = true) (hm : nodeWF m = true) :
    childrenWF (assocSet l c m) = true := by
  induction l with
  | nil => simp [assocSet, childrenWF, hm]
  | cons p rest ih =>
    rcases p with ⟨c', n'⟩
    simp only [childrenWF, Bool.and_eq_true] at hl
    by_cases hc : c' = c
    · subst hc
      simp only [assocSet, if_pos rfl, childrenWF, Bool.and_eq_true]
      exact ⟨hm, hl.2⟩
    · simp only [assocSet, if_neg hc, childrenWF, Bool.and_eq_true]
      exact ⟨hl.1, ih hl.2⟩

/-- Entries of a well-formed children mapping are well-formed. -/
theorem nodeWF_of_lookupChild (l : List (Char × PrefixTreeNode)) (c : Char)
    (m : PrefixTreeNode) (hl : childrenWF l = true) (h : lookupChild l c = some m) :
    nodeWF m = true := by
  induction l with
  | nil => simp [lookupChild] at h
  | cons p rest ih =>
    rcases p with ⟨c', n'⟩
    simp only [childrenWF, Bool.and_eq_true] at hl
    by_cases hc : c' = c
    · subst hc
      simp [lookupChild] at h
      exact h ▸ hl.1
    · simp only [lookupChild, if_neg hc] at h
      exact ih hl.2 h

/-- Children reached by `get_child` from a well-formed node are well-formed. -/
theorem nodeWF_get_child (n : PrefixTreeNode) (c : Char) (m : PrefixTreeNode)
    (hn : nodeWF n = true) (h : n.get_child c = some m) : nodeWF m = true := by
  rcases n with ⟨ch, b, kids⟩
  simp only [nodeWF, Bool.and_eq_true] at hn
  exact nodeWF_of_lookupChild kids c m hn.2 h

/-- Nodes reached by a walk from a well-formed node are well-formed. -/
theorem nodeWF_walk (cs : List Char) (n m : PrefixTreeNode) (hn : nodeWF n = true)
    (h : walk n cs = some m) : nodeWF m = true := by
  induction cs generalizing n with
  | nil =>
    simp only [walk, Option.some.injEq] at h
    exact h ▸ hn
  | cons c rest ih =>
    cases hg : n.get_child c with
    | some k =>
      simp only [walk, hg] at h
      exact ih k (nodeWF_get_child n c k hn hg) h
    | none => simp [walk, hg] at h

/-- Marking a node terminal does not change well-formedness. -/
theorem nodeWF_setTerminal (n : PrefixTreeNode) : nodeWF n.setTerminal = nodeWF n := by
  rcases n with ⟨ch, b, kids⟩
  rfl

/-- The insertion walk preserves well-formedness. -/
theorem nodeWF_insertFrom (cs : List Char) (n : PrefixTreeNode) (hn : nodeWF n = true) :
    nodeWF (PrefixTree.insertFrom n cs) = true := by
  induction cs generalizing n with
  | nil =>
    simp only [PrefixTree.insertFrom]
    rw [nodeWF_setTerminal]
    exact hn
  | cons c rest ih =>
    rcases n with ⟨ch, b, kids⟩
    simp only [nodeWF, Bool.and_eq_true] at hn
    cases hg : PrefixTreeNode.lookupChild kids c with
    | some child =>
      simp only [PrefixTree.insertFrom, get_child_mk, hg, nodeWF, children_mk, List.map_cons,
        Bool.and_eq_true]
      have hchild := nodeWF_of_lookupChild kids c child hn.2 hg
      exact ⟨keysDistinct_assocSet kids c _ hn.1,
        childrenWF_assocSet kids c _ hn.2 (ih child hchild)⟩
    | none =>
      have hnew : nodeWF (PrefixTreeNode.mk [c] false []) = true := by
        simp [nodeWF, keysDistinct, childrenWF]
      simp only [PrefixTree.insertFrom, get_child_mk, hg, nodeWF, children_mk,
        Bool.and_eq_true]
      exact ⟨keysDistinct_assocSet kids c _ hn.1,
        childrenWF_assocSet kids c _ hn.2 (ih _ hnew)⟩

/-- The root of the empty tree is well-formed. -/
theorem nodeWF_empty : nodeWF PrefixTree.empty.root = true := by
  simp [PrefixTree.empty, nodeWF, keysDistinct, childrenWF]

/-- Insertion preserves well-formedness of the root. -/
theorem nodeWF_insert (t : PrefixTree) (s : List Char) (h : nodeWF t.root = true) :
    nodeWF (t.insert s).root = true :=
  nodeWF_insertFrom s t.root h

/-- Every tree built by the constructor from a list of strings has a
well-formed root. -/
theorem nodeWF_ofStrings (ss : List (List Char)) :
    nodeWF (PrefixTree.ofStrings ss).root = true := by
  suffices h : ∀ (t : PrefixTree), nodeWF t.root = true →
      nodeWF (ss.foldl PrefixTree.insert t).root = true by
    exact h PrefixTree.empty nodeWF_empty
  induction ss with
  | nil => intro t ht; simpa using ht
  | cons s rest ih =>
    intro t ht
    simp only [List.foldl_cons]
    exact ih (t.insert s) (nodeWF_insert t s ht)

/-- The depth returned by `_find_node` never exceeds the string's length. -/
theorem _find_node_snd_le (t : PrefixTree) (s : List Char) :
    (t._find_node s).2 ≤ s.length := by
  cases s with
  | nil => simp [PrefixTree._find_node]
  | cons c rest =>
    simp only [PrefixTree._find_node, List.length_cons]
    rw [if_neg (by simp)]
    have := findNodeFrom_snd_le (c :: rest) t.root 0
    simpa using this

/-- `_find_node` reaches full depth exactly when the whole walk from the root
succeeds. -/
theorem _find_node_snd_eq_iff (t : PrefixTree) (s : List Char) :
    (t._find_node s).2 = s.length ↔ ∃ m, walk t.root s = some m := by
  cases s with
  | nil => simp [PrefixTree._find_node, walk]
  | cons c rest =>
    simp only [PrefixTree._find_node, List.length_cons]
    rw [if_neg (by simp)]
    have := findNodeFrom_snd_eq_iff (c :: rest) t.root 0
    simpa using this

/-- When the whole walk succeeds, `_find_node` returns the node reached and
the full depth. -/
theorem _find_node_of_walk (t : PrefixTree) (s : List Char) (m : PrefixTreeNode)
    (h : walk t.root s = some m) : t._find_node s = (m, s.length) := by
  cases s with
  | nil =>
    simp only [walk, Option.some.injEq] at h
    simp [PrefixTree._find_node, h]
  | cons c rest =>
    simp only [PrefixTree._find_node, List.length_cons]
    rw [if_neg (by simp)]
    have := findNodeFrom_of_walk (c :: rest) t.root m 0 h
    simpa using this

/-- Membership below the node reached by a successful walk is membership of
the concatenated string. -/
theorem memNode_append_of_walk (p cs : List Char) (n m : PrefixTreeNode)
    (h : walk n p = some m) : memNode n (p ++ cs) = memNode m cs := by
  induction p generalizing n with
  | nil =>
    simp only [walk, Option.some.injEq] at h
    simp [h]
  | cons c rest ih =>
    cases hg : n.get_child c with
    | some k =>
      simp only [walk, hg] at h
      simp only [List.cons_append, memNode, hg]
      exact ih k h
    | none => simp [walk, hg] at h

/-- If some extension of `p` is stored below `n`, the walk of `p` itself
succeeds. -/
theorem walk_isSome_of_memNode_append (p cs : List Char) (n : PrefixTreeNode)
    (h : memNode n (p ++ cs) = true) : ∃ m, walk n p = some m := by
  rcases (memNode_iff_walk (p ++ cs) n).1 h with ⟨k, hk, _⟩
  rw [walk_append] at hk
  rcases Option.bind_eq_some.1 hk with ⟨m, hm, _⟩
  exact ⟨m, hm⟩

/-- Inserting a string whose path is already fully built and terminal leaves
the node unchanged; used for idempotence. -/
theorem insertFrom_insertFrom (cs : List Char) (n : PrefixTreeNode) :
    PrefixTree.insertFrom (PrefixTree.insertFrom n cs) cs = PrefixTree.insertFrom n cs := by
  induction cs generalizing n with
  | nil =>
    rcases n with ⟨ch, b, kids⟩
    rfl
  | cons c rest ih =>
    rcases n with ⟨ch, b, kids⟩
    cases hg : PrefixTreeNode.lookupChild kids c with
    | some child =>
      simp only [PrefixTree.insertFrom, get_child_mk, character_mk, terminal_mk, children_mk,
        hg, lookupChild_assocSet_self]
      rw [assocSet_assocSet, ih]
    | none =>
      simp only [PrefixTree.insertFrom, get_child_mk, character_mk, terminal_mk, children_mk,
        hg, lookupChild_assocSet_self]
      rw [assocSet_assocSet, ih]

/-- Inserting the empty string marks the node terminal. -/
theorem insertFrom_nil_terminal (n : PrefixTreeNode) :
    (PrefixTree.insertFrom n []).terminal = true := by
  simp [PrefixTree.insertFrom]

/-- Inserting a nonempty string does not change the node's own terminal
flag. -/
theorem insertFrom_cons_terminal (c : Char) (rest : List Char) (n : PrefixTreeNode) :
    (PrefixTree.insertFrom n (c :: rest)).terminal = n.terminal := by
  rcases n with ⟨ch, b, kids⟩
  cases hg : PrefixTreeNode.lookupChild kids c with
  | some child => simp [PrefixTree.insertFrom, hg]
  | none => simp [PrefixTree.insertFrom, hg]

/-- The traversal from a terminal node starts with the accumulated path. -/
theorem traverse_head_of_terminal (n : PrefixTreeNode) (pfx : List Char)
    (h : n.terminal = true) : (PrefixTree._traverse n pfx).head? = some pfx := by
  rcases n with ⟨ch, b, kids⟩
  simp only [terminal_mk] at h
  subst h
  simp [PrefixTree._traverse]

/-- The state-threaded search loop leaves the tree state untouched and
computes the same result as the plain one. -/
theorem findNodeFromS_eq (cs : List Char) (t : PrefixTree) (n : PrefixTreeNode) (d : Nat) :
    findNodeFromS t n cs d = (t, PrefixTree.findNodeFrom n cs d) := by
  induction cs generalizing n d with
  | nil => rfl
  | cons c rest ih =>
    cases hg : n.get_child c with
    | some m => simp [findNodeFromS, PrefixTree.findNodeFrom, hg, ih]
    | none => simp [findNodeFromS, PrefixTree.findNodeFrom, hg]

/-- The state-threaded `_find_node` leaves the tree state untouched. -/
theorem findNodeS_eq (t : PrefixTree) (s : List Char) :
    findNodeS t s = (t, t._find_node s) := by
  cases s with
  | nil => rfl
  | cons c rest =>
    simp only [findNodeS, PrefixTree._find_node]
    rw [if_neg (by simp), if_neg (by simp)]
    exact findNodeFromS_eq (c :: rest) t t.root 0

mutual
/-- The state-threaded traversal leaves the tree state untouched and computes
the same result as the plain one. -/
theorem traverseS_eq (t : PrefixTree) (n : PrefixTreeNode) (pfx : List Char) :
    traverseS t n pfx = (t, PrefixTree._traverse n pfx) := by
  rcases n with ⟨ch, b, kids⟩
  simp only [traverseS, PrefixTree._traverse]
  rw [traverseChildrenS_eq t kids pfx]

/-- The state-threaded children loop leaves the tree state untouched and
computes the same result as the plain one. -/
theorem traverseChildrenS_eq (t : PrefixTree) (kids : List (Char × PrefixTreeNode))
    (pfx : List Char) :
    traverseChildrenS t kids pfx = (t, PrefixTree._traverseChildren kids pfx) := by
  cases kids with
  | nil => rfl
  | cons p rest =>
    rcases p with ⟨c, child⟩
    simp only [traverseChildrenS, PrefixTree._traverseChildren]
    rw [traverseS_eq t child (pfx ++ [c])]
    simp only []
    rw [traverseChildrenS_eq t rest pfx]
end

/-- The checked search loop never takes the missing-key branch. -/
theorem findNodeFromChecked_eq (cs : List Char) (n : PrefixTreeNode) (d : Nat) :
    findNodeFromChecked n cs d = some (PrefixTree.findNodeFrom n cs d) := by
  induction cs generalizing n d with
  | nil => rfl
  | cons c rest ih =>
    cases hg : n.get_child c with
    | some m =>
      have hhas : n.has_child c = true := by simp [PrefixTreeNode.has_child, hg]
      simp [findNodeFromChecked, PrefixTree.findNodeFrom, hhas, hg, ih]
    | none =>
      have hhas : n.has_child c = false := by simp [PrefixTreeNode.has_child, hg]
      simp [findNodeFromChecked, PrefixTree.findNodeFrom, hhas, hg]

/-- The checked insertion loop never takes the missing-key branch. -/
theorem insertFromChecked_eq (cs : List Char) (n : PrefixTreeNode) :
    insertFromChecked n cs = some (PrefixTree.insertFrom n cs) := by
  induction cs generalizing n with
  | nil => rfl
  | cons c rest ih =>
    cases hg : n.get_child c with
    | some m =>
      have hhas : n.has_child c = true := by simp [PrefixTreeNode.has_child, hg]
      simp [insertFromChecked, PrefixTree.insertFrom, hhas, hg, ih]
    | none =>
      have hhas : n.has_child c = false := by simp [PrefixTreeNode.has_child, hg]
      simp [insertFromChecked, PrefixTree.insertFrom, hhas, hg, ih]

/-- Unfolding of the `contains` test through `_find_node`. -/
theorem contains_eq_true_iff (t : PrefixTree) (s : List Char) :
    t.contains s = true ↔
      ((t._find_node s).2 = s.length ∧ (t._find_node s).1.terminal = true) := by
  by_cases h : ((t._find_node s).2 = s.length ∧ (t._find_node s).1.terminal = true)
  · simp [PrefixTree.contains, is_terminal_eq, h]
  · simp [PrefixTree.contains, is_terminal_eq, h]

/-- A string just inserted is contained. -/
theorem contains_insert_self (t : PrefixTree) (s : List Char) :
    (t.insert s).contains s = true := by
  rw [contains_eq_memNode]
  have hroot : (t.insert s).root = PrefixTree.insertFrom t.root s := rfl
  rw [hroot]
  exact (memNode_insertFrom s t.root s).2 (Or.inl rfl)

/-- `complete` when the whole given string was matched. -/
theorem complete_matched (t : PrefixTree) (p : List Char)
    (hd : (t._find_node p).2 = p.length) :
    t.complete p = PrefixTree._traverse (t._find_node p).1 p := by
  simp only [PrefixTree.complete]
  rw [if_pos hd]

/-- `complete` when the given string was not fully matched. -/
theorem complete_not_matched (t : PrefixTree) (p : List Char)
    (hd : (t._find_node p).2 ≠ p.length) : t.complete p = [] := by
  simp only [PrefixTree.complete]
  rw [if_neg hd]

/-- Trees with equal roots and sizes are equal. -/
theorem tree_eq_of_parts (a b : PrefixTree) (h1 : a.root = b.root) (h2 : a.size = b.size) :
    a = b := by
  cases a
  cases b
  simp only at h1 h2
  simp [h1, h2]

/-- Double insertion of the same string produces the identical tree state. -/
theorem insert_insert_self (t : PrefixTree) (s : List Char) :
    (t.insert s).insert s = t.insert s := by
  refine tree_eq_of_parts _ _ ?_ ?_
  · have h1 : ((t.insert s).insert s).root =
        PrefixTree.insertFrom (PrefixTree.insertFrom t.root s) s := rfl
    rw [h1]
    exact insertFrom_insertFrom s t.root
  · have h2 : ((t.insert s).insert s).size =
        if ¬ (t.insert s).contains s = true then (t.insert s).size + 1
        else (t.insert s).size := rfl
    rw [h2, contains_insert_self]
    simp

/-- Root terminality after an insertion. -/
theorem insert_root_terminal_iff (t : PrefixTree) (s : List Char) :
    (t.insert s).root.terminal = true ↔ (s = [] ∨ t.root.terminal = true) := by
  have hroot : (t.insert s).root = PrefixTree.insertFrom t.root s := rfl
  rw [hroot]
  cases s with
  | nil => simp [insertFrom_nil_terminal]
  | cons c rest => simp [insertFrom_cons_terminal]

/-- Root terminality after a sequence of insertions. -/
theorem foldl_insert_root_terminal (ss : List (List Char)) (t : PrefixTree) :
    (ss.foldl PrefixTree.insert t).root.terminal = true ↔
      ([] ∈ ss ∨ t.root.terminal = true) := by
  induction ss generalizing t with
  | nil => simp
  | cons s rest ih =>
    simp only [List.foldl_cons]
    rw [ih (t.insert s), insert_root_terminal_iff]
    constructor
    · rintro (h | h | h)
      · left; simp [h]
      · left; simp [h.symm]  -- h : s = [] means [] = s ∈ s :: rest
      · right; exact h
    · rintro (h | h)
      · rcases List.mem_cons.1 h with h1 | h1
        · right; left; exact h1.symm
        · left; exact h1
      · right; right; exact h

/-- The checked `_find_node` never takes the missing-key branch. -/
theorem findNodeChecked_eq (t : PrefixTree) (s : List Char) :
    findNodeChecked t s = some (t._find_node s) := by
  cases s with
  | nil => rfl
  | cons c rest =>
    simp only [findNodeChecked, PrefixTree._find_node]
    rw [if_neg (by simp), if_neg (by simp)]
    exact findNodeFromChecked_eq (c :: rest) t.root 0

/-! Claim theorems. -/

/-- C1: for every tree state and every string S, after `insert(S)`,
`contains(S)` is true, and `size` increases by exactly 1 if `contains(S)` was
false before the call and is unchanged if it was already true. -/
theorem claim_C1 (t : PrefixTree) (s : List Char) :
    (t.insert s).contains s = true ∧
      (t.insert s).size = (if t.contains s = true then t.size else t.size + 1) := by
  refine ⟨contains_insert_self t s, ?_⟩
  have h : (t.insert s).size =
      if ¬ t.contains s = true then t.size + 1 else t.size := rfl
  rw [h]
  by_cases hc : t.contains s = true
  · simp [hc]
  · simp [hc]

/-- C2: `contains(S)` is true iff a full character-by-character path for S
exists from the root and the node reached is terminal; in particular, in the
tree built from ABC, ABD, A, XYZ, `contains("AB")` is false and
`contains("A")` is true. -/
theorem claim_C2 :
    (∀ (t : PrefixTree) (s : List Char),
        t.contains s = true ↔ ∃ n, walk t.root s = some n ∧ n.terminal = true) ∧
      (PrefixTree.ofStrings [['A','B','C'], ['A','B','D'], ['A'], ['X','Y','Z']]).contains
        ['A','B'] = false ∧
      (PrefixTree.ofStrings [['A','B','C'], ['A','B','D'], ['A'], ['X','Y','Z']]).contains
        ['A'] = true := by
  refine ⟨?_, by decide, by decide⟩
  intro t s
  rw [contains_eq_memNode]
  exact memNode_iff_walk s t.root

/-- C3: `complete(P)` returns exactly the stored strings having P as a front
part, with no duplicates, and is empty whenever the matched depth is less
than the length of P. -/
theorem claim_C3 (t : PrefixTree) (p s : List Char) (hwf : nodeWF t.root = true) :
    (s ∈ t.complete p ↔ (t.contains s = true ∧ p <+: s)) ∧
      (t.complete p).Nodup ∧
      ((t._find_node p).2 < p.length → t.complete p = []) := by
  have hc3 : (t._find_node p).2 < p.length → t.complete p = [] := by
    intro h
    exact complete_not_matched t p (by omega)
  refine ⟨?_, ?_, hc3⟩
  · by_cases hd : (t._find_node p).2 = p.length
    · rcases (_find_node_snd_eq_iff t p).1 hd with ⟨m, hm⟩
      have hfind := _find_node_of_walk t p m hm
      have hwfm := nodeWF_walk p t.root m hwf hm
      have hcompl : t.complete p = PrefixTree._traverse m p := by
        rw [complete_matched t p hd, hfind]
      rw [hcompl, mem_traverse m p s hwfm]
      constructor
      · rintro ⟨cs, rfl, hmm⟩
        refine ⟨?_, ⟨cs, rfl⟩⟩
        rw [contains_eq_memNode, memNode_append_of_walk p cs t.root m hm]
        exact hmm
      · rintro ⟨hcont, ⟨cs, rfl⟩⟩
        refine ⟨cs, rfl, ?_⟩
        rw [contains_eq_memNode, memNode_append_of_walk p cs t.root m hm] at hcont
        exact hcont
    · have hlt : (t._find_node p).2 < p.length := by
        have := _find_node_snd_le t p
        omega
      rw [hc3 hlt]
      constructor
      · intro h
        simp at h
      · rintro ⟨hcont, ⟨cs, rfl⟩⟩
        rw [contains_eq_memNode] at hcont
        rcases walk_isSome_of_memNode_append p cs t.root hcont with ⟨m, hm⟩
        have := (_find_node_snd_eq_iff t p).2 ⟨m, hm⟩
        omega
  · by_cases hd : (t._find_node p).2 = p.length
    · rcases (_find_node_snd_eq_iff t p).1 hd with ⟨m, hm⟩
      have hfind := _find_node_of_walk t p m hm
      have hwfm := nodeWF_walk p t.root m hwf hm
      have hcompl : t.complete p = PrefixTree._traverse m p := by
        rw [complete_matched t p hd, hfind]
      rw [hcompl]
      exact nodup_traverse m p hwfm
    · rw [complete_not_matched t p hd]
      exact List.nodup_nil

/-- Witness for C3 on the tree built from ABC, ABD, A, XYZ with P = "AB" and
S = "ABC". -/
theorem claim_C3_witness :
    ((['A','B','C'] ∈ (PrefixTree.ofStrings
          [['A','B','C'], ['A','B','D'], ['A'], ['X','Y','Z']]).complete ['A','B'] ↔
        ((PrefixTree.ofStrings
            [['A','B','C'], ['A','B','D'], ['A'], ['X','Y','Z']]).contains
            ['A','B','C'] = true ∧ ['A','B'] <+: ['A','B','C'])) ∧
      ((PrefixTree.ofStrings
          [['A','B','C'], ['A','B','D'], ['A'], ['X','Y','Z']]).complete ['A','B']).Nodup ∧
      (((PrefixTree.ofStrings
            [['A','B','C'], ['A','B','D'], ['A'], ['X','Y','Z']])._find_node ['A','B']).2 <
          (['A','B'] : List Char).length →
        (PrefixTree.ofStrings
          [['A','B','C'], ['A','B','D'], ['A'], ['X','Y','Z']]).complete ['A','B'] = [])) :=
  claim_C3 (PrefixTree.ofStrings [['A','B','C'], ['A','B','D'], ['A'], ['X','Y','Z']])
    ['A','B'] ['A','B','C'] (by decide)

/-- C4: `_find_node(S)` returns a depth bounded by the length of S, reaching
it exactly when every character had a matching child edge, and returns
`(root, 0)` on the empty string. -/
theorem claim_C4 (t : PrefixTree) (s : List Char) :
    (t._find_node s).2 ≤ s.length ∧
      ((t._find_node s).2 = s.length ↔ walk t.root s = some (t._find_node s).1) ∧
      t._find_node [] = (t.root, 0) := by
  refine ⟨_find_node_snd_le t s, ⟨?_, ?_⟩, rfl⟩
  · intro h
    rcases (_find_node_snd_eq_iff t s).1 h with ⟨m, hm⟩
    have hfind := _find_node_of_walk t s m hm
    rw [hfind]
    simpa using hm
  · intro h
    exact (_find_node_snd_eq_iff t s).2 ⟨_, h⟩

/-- C5: `strings()` returns the same sequence as `complete('')`, and the
enumeration lists every stored string exactly once (it contains exactly the
stored strings, with no duplicates). -/
theorem claim_C5 (t : PrefixTree) (s : List Char) (hwf : nodeWF t.root = true) :
    t.strings = t.complete [] ∧
      (s ∈ t.strings ↔ t.contains s = true) ∧
      (t.strings).Nodup := by
  refine ⟨?_, ?_, nodup_traverse t.root [] hwf⟩
  · simp [PrefixTree.strings, PrefixTree.complete, PrefixTree._find_node]
  · rw [PrefixTree.strings, mem_traverse t.root [] s hwf, contains_eq_memNode]
    constructor
    · rintro ⟨cs, rfl, h⟩
      simpa using h
    · intro h
      exact ⟨s, by simp, h⟩

/-- Witness for C5 on the tree built from ABC, ABD, A, XYZ with S = "A". -/
theorem claim_C5_witness :
    ((PrefixTree.ofStrings [['A','B','C'], ['A','B','D'], ['A'], ['X','Y','Z']]).strings =
        (PrefixTree.ofStrings
          [['A','B','C'], ['A','B','D'], ['A'], ['X','Y','Z']]).complete [] ∧
      (['A'] ∈ (PrefixTree.ofStrings
          [['A','B','C'], ['A','B','D'], ['A'], ['X','Y','Z']]).strings ↔
        (PrefixTree.ofStrings
          [['A','B','C'], ['A','B','D'], ['A'], ['X','Y','Z']]).contains ['A'] = true) ∧
      ((PrefixTree.ofStrings
          [['A','B','C'], ['A','B','D'], ['A'], ['X','Y','Z']]).strings).Nodup) :=
  claim_C5 (PrefixTree.ofStrings [['A','B','C'], ['A','B','D'], ['A'], ['X','Y','Z']])
    ['A'] (by decide)

/-- C6: insertion is idempotent: inserting S twice yields a tree whose
`contains`, `complete` and `strings` results and `size` all agree with those
after inserting S once. -/
theorem claim_C6 (t : PrefixTree) (s x p : List Char) :
    ((t.insert s).insert s).contains x = (t.insert s).contains x ∧
      ((t.insert s).insert s).complete p = (t.insert s).complete p ∧
      ((t.insert s).insert s).strings = (t.insert s).strings ∧
      ((t.insert s).insert s).size = (t.insert s).size := by
  rw [insert_insert_self t s]
  exact ⟨rfl, rfl, rfl, rfl⟩

/-- C7: the root is never terminal unless the empty string was explicitly
inserted; inserting the empty string marks the root terminal and makes
`contains('')` true; a fresh root is not terminal. -/
theorem claim_C7 (t : PrefixTree) (s : List Char) (ss : List (List Char)) :
    ((PrefixTree.ofStrings ss).root.terminal = true ↔ [] ∈ ss) ∧
      ((t.insert s).root.terminal = true ↔ (s = [] ∨ t.root.terminal = true)) ∧
      (t.insert []).contains [] = true ∧
      PrefixTree.empty.root.terminal = false := by
  refine ⟨?_, insert_root_terminal_iff t s, contains_insert_self t [], rfl⟩
  rw [PrefixTree.ofStrings, foldl_insert_root_terminal ss PrefixTree.empty]
  have hemp : PrefixTree.empty.root.terminal = false := rfl
  simp [hemp]

/-- C8: all internal uses of `get_child` in `insert`, `contains`, `complete`
and `_find_node` are guarded by `has_child`, so the transcriptions that
propagate the missing-key failure of `get_child` always succeed and agree
with the plain operations (`strings` performs no child lookup at all). -/
theorem claim_C8 (t : PrefixTree) (s p : List Char) :
    findNodeChecked t s = some (t._find_node s) ∧
      containsChecked t s = some (t.contains s) ∧
      insertChecked t s = some (t.insert s) ∧
      completeChecked t p = some (t.complete p) := by
  have hfind := findNodeChecked_eq t s
  have hcont : containsChecked t s = some (t.contains s) := by
    simp [containsChecked, hfind, PrefixTree.contains]
  refine ⟨hfind, hcont, ?_, ?_⟩
  · simp [insertChecked, hcont, insertFromChecked_eq, PrefixTree.insert]
  · simp [completeChecked, findNodeChecked_eq t p, PrefixTree.complete]

/-- C9: the traversal visits a terminal node before recursing into its
children: in `complete(P)` and `strings()`, no string listed later is a
proper front part of a string listed earlier (so every stored string comes
before its stored proper extensions), and when P itself is stored, it is the
first element of `complete(P)`. -/
theorem claim_C9 (t : PrefixTree) (p : List Char) (hwf : nodeWF t.root = true) :
    (t.complete p).Pairwise (fun a b => ¬(b <+: a ∧ b ≠ a)) ∧
      (t.strings).Pairwise (fun a b => ¬(b <+: a ∧ b ≠ a)) ∧
      (t.contains p = true → (t.complete p).head? = some p) := by
  refine ⟨?_, pairwise_traverse t.root [] hwf, ?_⟩
  · by_cases hd : (t._find_node p).2 = p.length
    · rcases (_find_node_snd_eq_iff t p).1 hd with ⟨m, hm⟩
      have hfind := _find_node_of_walk t p m hm
      have hwfm := nodeWF_walk p t.root m hwf hm
      have hcompl : t.complete p = PrefixTree._traverse m p := by
        rw [complete_matched t p hd, hfind]
      rw [hcompl]
      exact pairwise_traverse m p hwfm
    · rw [complete_not_matched t p hd]
      exact List.Pairwise.nil
  · intro hcont
    rcases (contains_eq_true_iff t p).1 hcont with ⟨hd, hterm⟩
    rw [complete_matched t p hd]
    exact traverse_head_of_terminal (t._find_node p).1 p hterm

/-- Witness for C9 on the tree built from ABC, ABD, A, XYZ with P = "A". -/
theorem claim_C9_witness :
    (((PrefixTree.ofStrings
          [['A','B','C'], ['A','B','D'], ['A'], ['X','Y','Z']]).complete ['A']).Pairwise
        (fun a b => ¬(b <+: a ∧ b ≠ a)) ∧
      ((PrefixTree.ofStrings
          [['A','B','C'], ['A','B','D'], ['A'], ['X','Y','Z']]).strings).Pairwise
        (fun a b => ¬(b <+: a ∧ b ≠ a)) ∧
      ((PrefixTree.ofStrings
            [['A','B','C'], ['A','B','D'], ['A'], ['X','Y','Z']]).contains ['A'] = true →
        ((PrefixTree.ofStrings
            [['A','B','C'], ['A','B','D'], ['A'], ['X','Y','Z']]).complete ['A']).head? =
          some ['A'])) :=
  claim_C9 (PrefixTree.ofStrings [['A','B','C'], ['A','B','D'], ['A'], ['X','Y','Z']])
    ['A'] (by decide)

/-- C10: the query operations `contains`, `complete`, `strings` and
`is_empty` have no side effects: their state-threaded transcriptions return
the tree state unchanged together with the plain result. -/
theorem claim_C10 (t : PrefixTree) (s p : List Char) :
    containsS t s = (t, t.contains s) ∧
      completeS t p = (t, t.complete p) ∧
      stringsS t = (t, t.strings) ∧
      isEmptyS t = (t, t.is_empty) := by
  refine ⟨?_, ?_, ?_, rfl⟩
  · simp [containsS, findNodeS_eq, PrefixTree.contains]
  · by_cases hd : (t._find_node p).2 = p.length
    · simp only [completeS, findNodeS_eq]
      rw [if_pos hd]
      rw [traverseS_eq t (t._find_node p).1 p, complete_matched t p hd]
    · simp only [completeS, findNodeS_eq]
      rw [if_neg hd]
      rw [complete_not_matched t p hd]
  · simp [stringsS, traverseS_eq, PrefixTree.strings]
